import Mathlib

/-!
Verification development for the moon-phase icon generator
(`tools/moon_phase_img_maker/src/main.py`).

The numeric core (`circle_overlap_area_equal_r`, `d_from_lit_fraction`) and the
per-pixel renderer (`render_moon_icon`) are embedded over the real numbers:
Python floats become `ℝ`, Python integers become `ℤ`/`ℕ`, and the imperative
pixel loop becomes a fold over the pixel grid.  External library behaviour
(PIL rasterization and alpha compositing) that the repository only calls is
modelled from the specification, marked as such in the doc comments.
-/

open scoped Classical

/-- Python float modulo `x % y` for a positive modulus, as used in
`phase_deg % 360.0`: the remainder with the sign of the divisor,
`x - y * floor (x / y)`. -/
noncomputable def pymod (x y : ℝ) : ℝ := x - y * (⌊x / y⌋ : ℤ)

/-- Degrees to radians, `math.radians`. -/
noncomputable def radians (x : ℝ) : ℝ := x * (Real.pi / 180)

/-- Source function `circle_overlap_area_equal_r(d, r)`: area of intersection of
two circles of equal radius `r` whose centers are `d` apart. -/
noncomputable def circle_overlap_area_equal_r (d r : ℝ) : ℝ :=
  if d ≤ 0 then Real.pi * r * r
  else if 2 * r ≤ d then 0
  else 2 * r * r * Real.arccos (d / (2 * r)) - 0.5 * d * Real.sqrt (4 * r * r - d * d)

/-- The nested helper `lit_from_d` of `d_from_lit_fraction`: the lit area
fraction left when a shadow circle is offset by `dval`. -/
noncomputable def lit_from_d (dval r : ℝ) : ℝ :=
  1 - circle_overlap_area_equal_r dval r / (Real.pi * r * r)

/-- The tangency guard `eps = max(1e-3, r * 1e-4)` of `d_from_lit_fraction`. -/
noncomputable def epsFor (r : ℝ) : ℝ := max (1 / 1000) (r * (1 / 10000))

/-- One iteration of the bisection loop in `d_from_lit_fraction`: the state is
the pair `(lo, hi)`. -/
noncomputable def bisectStep (f r : ℝ) (p : ℝ × ℝ) : ℝ × ℝ :=
  if lit_from_d ((p.1 + p.2) / 2) r < f then ((p.1 + p.2) / 2, p.2)
  else (p.1, (p.1 + p.2) / 2)

/-- The bisection loop of `d_from_lit_fraction`, iterated `n` times. -/
noncomputable def bisectIter (f r : ℝ) : ℕ → ℝ × ℝ → ℝ × ℝ
  | 0, p => p
  | n + 1, p => bisectIter f r n (bisectStep f r p)

/-- Source function `d_from_lit_fraction(f, r)`: numerically inverts the lit
fraction to a shadow-circle offset by 40 bisection iterations. -/
noncomputable def d_from_lit_fraction (f r : ℝ) : ℝ :=
  if f ≤ 0 then 0
  else if 1 ≤ f then 2 * r - epsFor r
  else
    min (((bisectIter f r 40 (0, 2 * r - epsFor r)).1 +
          (bisectIter f r 40 (0, 2 * r - epsFor r)).2) / 2)
        (2 * r - epsFor r)

/-- Disk geometry of `render_moon_icon`: `cx = cy = size // 2`. -/
def diskCenter (size : ℕ) : ℕ := size / 2

/-- Disk geometry of `render_moon_icon`: `r = (size - 2 * margin) // 2`. -/
def diskRadius (size margin : ℕ) : ℕ := (size - 2 * margin) / 2

/-- C5: for `r > 0`, `circle_overlap_area_equal_r` returns `π r²` when `d ≤ 0`,
`0` when `d ≥ 2r`, and otherwise the two-circle lens formula; in the open case
the `acos` argument lies in `[-1, 1]` and the `sqrt` argument is nonnegative,
so no library error can be raised. -/
theorem c5_overlap_contract (d r : ℝ) (hr : 0 < r) :
    (d ≤ 0 → circle_overlap_area_equal_r d r = Real.pi * r * r) ∧
    (2 * r ≤ d → circle_overlap_area_equal_r d r = 0) ∧
    (0 < d → d < 2 * r →
      circle_overlap_area_equal_r d r =
        2 * r * r * Real.arccos (d / (2 * r)) - 0.5 * d * Real.sqrt (4 * r * r - d * d) ∧
      -1 ≤ d / (2 * r) ∧ d / (2 * r) ≤ 1 ∧ 0 ≤ 4 * r * r - d * d) := by
  refine ⟨fun h => by simp [circle_overlap_area_equal_r, h], fun h => ?_, fun h1 h2 => ?_⟩
  · have h0 : ¬ d ≤ 0 := by nlinarith
    simp [circle_overlap_area_equal_r, h0, h]
  · have h0 : ¬ d ≤ 0 := by linarith
    have h2' : ¬ 2 * r ≤ d := by linarith
    have hpos : (0 : ℝ) ≤ d / (2 * r) := by positivity
    refine ⟨by simp [circle_overlap_area_equal_r, h0, h2'], by linarith, ?_, by nlinarith⟩
    exact (div_le_one (by linarith)).mpr (le_of_lt h2)

/-- Witness for C5 at `d = 1`, `r = 1`. -/
theorem c5_overlap_contract_witness :
    (0 : ℝ) < 1 ∧
    (((1 : ℝ) ≤ 0 → circle_overlap_area_equal_r 1 1 = Real.pi * 1 * 1) ∧
     (2 * 1 ≤ (1 : ℝ) → circle_overlap_area_equal_r 1 1 = 0) ∧
     ((0 : ℝ) < 1 → (1 : ℝ) < 2 * 1 →
       circle_overlap_area_equal_r 1 1 =
         2 * 1 * 1 * Real.arccos (1 / (2 * 1)) - 0.5 * 1 * Real.sqrt (4 * 1 * 1 - 1 * 1) ∧
       -1 ≤ (1 : ℝ) / (2 * 1) ∧ (1 : ℝ) / (2 * 1) ≤ 1 ∧ (0 : ℝ) ≤ 4 * 1 * 1 - 1 * 1)) :=
  ⟨by norm_num, c5_overlap_contract 1 1 (by norm_num)⟩

/-- C10: for every distance `d` and radius `r > 0`, the overlap area is between
`0` and the full circle area `π r²`. -/
theorem c10_overlap_in_range (d r : ℝ) (hr : 0 < r) :
    0 ≤ circle_overlap_area_equal_r d r ∧
    circle_overlap_area_equal_r d r ≤ Real.pi * r * r := by
  unfold circle_overlap_area_equal_r
  split_ifs with h1 h2
  · exact ⟨by positivity, le_refl _⟩
  · exact ⟨le_refl _, by positivity⟩
  · push_neg at h1 h2
    set x := d / (2 * r) with hx
    have h2r : (0 : ℝ) < 2 * r := by linarith
    have hx0 : 0 ≤ x := by positivity
    have hx1 : x ≤ 1 := (div_le_one h2r).mpr (le_of_lt h2)
    have hd : d = 2 * r * x := by field_simp [hx]
    have hfac : 4 * r * r - d * d = (2 * r) ^ 2 * (1 - x ^ 2) := by
      rw [hd]; ring
    have hsqrt : Real.sqrt (4 * r * r - d * d) = 2 * r * Real.sqrt (1 - x ^ 2) := by
      rw [hfac, Real.sqrt_mul (by positivity), Real.sqrt_sq (by linarith)]
    set θ := Real.arccos x with hθ
    have hθ0 : 0 ≤ θ := Real.arccos_nonneg x
    have hcos : Real.cos θ = x := Real.cos_arccos (by linarith) hx1
    have hsin : Real.sin θ = Real.sqrt (1 - x ^ 2) := Real.sin_arccos x
    have hkey : x * Real.sqrt (1 - x ^ 2) ≤ θ := by
      have h2θ : Real.sin (2 * θ) = 2 * Real.sin θ * Real.cos θ := Real.sin_two_mul θ
      have hle : Real.sin (2 * θ) ≤ 2 * θ := Real.sin_le (by linarith)
      have hdbl : 2 * (x * Real.sqrt (1 - x ^ 2)) = Real.sin (2 * θ) := by
        rw [h2θ, hsin, hcos]; ring
      linarith
    have hθhalf : θ ≤ Real.pi / 2 := Real.arccos_le_pi_div_two.mpr hx0
    constructor
    · have : 0.5 * d * Real.sqrt (4 * r * r - d * d) = 2 * r * r * (x * Real.sqrt (1 - x ^ 2)) := by
        rw [hsqrt, hd]; ring
      rw [this]
      have : 2 * r * r * (x * Real.sqrt (1 - x ^ 2)) ≤ 2 * r * r * θ := by
        apply mul_le_mul_of_nonneg_left hkey (by positivity)
      linarith
    · have hterm : 0 ≤ 0.5 * d * Real.sqrt (4 * r * r - d * d) := by positivity
      have : 2 * r * r * θ ≤ 2 * r * r * (Real.pi / 2) := by
        apply mul_le_mul_of_nonneg_left hθhalf (by positivity)
      nlinarith

/-- Witness for C10 at `d = 1`, `r = 1`. -/
theorem c10_overlap_in_range_witness :
    (0 : ℝ) < 1 ∧
    (0 ≤ circle_overlap_area_equal_r 1 1 ∧
     circle_overlap_area_equal_r 1 1 ≤ Real.pi * 1 * 1) :=
  ⟨by norm_num, c10_overlap_in_range 1 1 (by norm_num)⟩

/-- Counterexample to C4 as stated: at `size = 5`, `margin = 1` (both positive,
`size > 2 * margin`), the computed radius is `1` and `2 * 1 + 2 * 1 = 4 ≠ 5`. -/
theorem c4_geometry_counterexample :
    0 < 5 ∧ 0 < 1 ∧ 2 * 1 < 5 ∧ 2 * diskRadius 5 1 + 2 * 1 ≠ 5 := by
  decide

/-- C4 (amended): for positive `size`, `margin` with `size > 2 * margin` and
`size` even (equivalently `size - 2 * margin` even), the disk geometry of
`render_moon_icon` satisfies `2 * radius + 2 * margin = size`. -/
theorem c4_geometry_invariant (size margin : ℕ) (hs : 0 < size) (hm : 0 < margin)
    (hsm : 2 * margin < size) (he : Even size) :
    2 * diskRadius size margin + 2 * margin = size := by
  obtain ⟨k, hk⟩ := he
  unfold diskRadius
  omega

/-- Witness for C4 (amended) at the default configuration `size = 128`,
`margin = 8`. -/
theorem c4_geometry_invariant_witness :
    (0 < 128 ∧ 0 < 8 ∧ 2 * 8 < 128 ∧ Even 128) ∧
    2 * diskRadius 128 8 + 2 * 8 = 128 :=
  ⟨⟨by decide, by decide, by decide, by decide⟩,
   c4_geometry_invariant 128 8 (by decide) (by decide) (by decide) (by decide)⟩

/-- The open-case lens formula of `circle_overlap_area_equal_r`, as a total
function of the distance; it agrees with the source function on `[0, 2r]` and
is used to analyse the piecewise source function. -/
noncomputable def overlapF (r d : ℝ) : ℝ :=
  2 * r * r * Real.arccos (d / (2 * r)) - 0.5 * d * Real.sqrt (4 * r * r - d * d)

/-- On the closed interval `[0, 2r]` the source function agrees with the lens
formula (the two constant branches are the continuous extensions). -/
theorem overlap_eq_overlapF (r d : ℝ) (hr : 0 < r) (h0 : 0 ≤ d) (h2 : d ≤ 2 * r) :
    circle_overlap_area_equal_r d r = overlapF r d := by
  have h2r : (0 : ℝ) < 2 * r := by linarith
  unfold circle_overlap_area_equal_r overlapF
  rcases eq_or_lt_of_le h0 with h | h
  · simp only [← h, if_pos le_rfl]
    simp [Real.arccos_zero]
    ring
  · rcases eq_or_lt_of_le h2 with h2e | h2l
    · have hne : ¬ d ≤ 0 := by linarith
      rw [if_neg hne, if_pos (le_of_eq h2e.symm)]
      subst h2e
      rw [div_self (ne_of_gt h2r), Real.arccos_one]
      rw [show 4 * r * r - 2 * r * (2 * r) = 0 by ring, Real.sqrt_zero]
      ring
    · have hne : ¬ d ≤ 0 := by linarith
      rw [if_neg hne, if_neg (not_le.mpr h2l)]

/-- Derivative of the lens formula: on `(-2r, 2r)` it is `-sqrt (4r² - d²)`. -/
theorem hasDerivAt_overlapF (r d : ℝ) (hr : 0 < r) (h1 : -(2 * r) < d) (h2 : d < 2 * r) :
    HasDerivAt (overlapF r) (-Real.sqrt (4 * r * r - d * d)) d := by
  have h2r : (0 : ℝ) < 2 * r := by linarith
  have hx1 : (-1 : ℝ) < d / (2 * r) := (lt_div_iff h2r).mpr (by linarith)
  have hx2 : d / (2 * r) < 1 := (div_lt_one h2r).mpr h2
  have hSpos : (0 : ℝ) < 4 * r * r - d * d := by nlinarith
  have hS : (0 : ℝ) < Real.sqrt (4 * r * r - d * d) := Real.sqrt_pos.mpr hSpos
  have hinner : HasDerivAt (fun y : ℝ => y / (2 * r)) (1 / (2 * r)) d := by
    simpa using (hasDerivAt_id d).div_const (2 * r)
  have hacos : HasDerivAt (fun y : ℝ => Real.arccos (y / (2 * r)))
      (-(1 / Real.sqrt (1 - (d / (2 * r)) ^ 2)) * (1 / (2 * r))) d := by
    have := (Real.hasDerivAt_arccos (ne_of_gt hx1) (ne_of_lt hx2)).comp d hinner
    simpa [Function.comp] using this
  have hsq : HasDerivAt (fun y : ℝ => 4 * r * r - y * y) (-(2 * d)) d := by
    have := ((hasDerivAt_id d).mul (hasDerivAt_id d)).const_sub (4 * r * r)
    convert this using 1
    simp only [id_eq]
    ring
  have hsqrt : HasDerivAt (fun y : ℝ => Real.sqrt (4 * r * r - y * y))
      (1 / (2 * Real.sqrt (4 * r * r - d * d)) * (-(2 * d))) d := by
    have := (Real.hasDerivAt_sqrt (ne_of_gt hSpos)).comp d hsq
    simpa [Function.comp] using this
  have hlin : HasDerivAt (fun y : ℝ => 0.5 * y) (0.5 : ℝ) d := by
    simpa using (hasDerivAt_id d).const_mul (0.5 : ℝ)
  have hprod : HasDerivAt (fun y : ℝ => 0.5 * y * Real.sqrt (4 * r * r - y * y))
      (0.5 * Real.sqrt (4 * r * r - d * d) +
        0.5 * d * (1 / (2 * Real.sqrt (4 * r * r - d * d)) * (-(2 * d)))) d := by
    exact hlin.mul hsqrt
  have htot := (hacos.const_mul (2 * r * r)).sub hprod
  have hs1 : Real.sqrt (1 - (d / (2 * r)) ^ 2) = Real.sqrt (4 * r * r - d * d) / (2 * r) := by
    rw [show (1 : ℝ) - (d / (2 * r)) ^ 2 = (4 * r * r - d * d) / ((2 * r) ^ 2) by
      field_simp; ring]
    rw [Real.sqrt_div (le_of_lt hSpos), Real.sqrt_sq (le_of_lt h2r)]
  have hsq2 : Real.sqrt (4 * r * r - d * d) ^ 2 = 4 * r * r - d * d :=
    Real.sq_sqrt (le_of_lt hSpos)
  convert htot using 1
  rw [hs1]
  have hSne : Real.sqrt (4 * r * r - d * d) ≠ 0 := ne_of_gt hS
  field_simp
  linear_combination (-(2 * r * Real.sqrt (4 * r * r - d * d))) * hsq2

/-- C6: for `r > 0`, the overlap area is non-increasing in the distance on
`[0, 2r]`, with value `π r²` at `0` and `0` at `2r`. -/
theorem c6_overlap_antitone (r : ℝ) (hr : 0 < r) :
    AntitoneOn (fun d => circle_overlap_area_equal_r d r) (Set.Icc 0 (2 * r)) ∧
    circle_overlap_area_equal_r 0 r = Real.pi * r * r ∧
    circle_overlap_area_equal_r (2 * r) r = 0 := by
  have h2r : (0 : ℝ) < 2 * r := by linarith
  have hFcont : Continuous (overlapF r) := by
    unfold overlapF
    exact (continuous_const.mul (Real.continuous_arccos.comp (continuous_id.div_const _))).sub
      ((continuous_const.mul continuous_id).mul
        (Real.continuous_sqrt.comp (continuous_const.sub (continuous_id.mul continuous_id))))
  have hFanti : AntitoneOn (overlapF r) (Set.Icc 0 (2 * r)) := by
    apply antitoneOn_of_deriv_nonpos (convex_Icc _ _) hFcont.continuousOn
    · intro y hy
      rw [interior_Icc] at hy
      exact (hasDerivAt_overlapF r y hr (by linarith [hy.1]) hy.2).differentiableAt.differentiableWithinAt
    · intro y hy
      rw [interior_Icc] at hy
      rw [(hasDerivAt_overlapF r y hr (by linarith [hy.1]) hy.2).deriv]
      simp [Real.sqrt_nonneg]
  refine ⟨?_, by simp [circle_overlap_area_equal_r], ?_⟩
  · intro a ha b hb hab
    show circle_overlap_area_equal_r b r ≤ circle_overlap_area_equal_r a r
    rw [overlap_eq_overlapF r a hr ha.1 ha.2, overlap_eq_overlapF r b hr hb.1 hb.2]
    exact hFanti ha hb hab
  · have hne : ¬ (2 * r ≤ 0) := by linarith
    simp [circle_overlap_area_equal_r, hne]

/-- Witness for C6 at `r = 1`. -/
theorem c6_overlap_antitone_witness :
    (0 : ℝ) < 1 ∧
    (AntitoneOn (fun d => circle_overlap_area_equal_r d 1) (Set.Icc 0 (2 * 1)) ∧
     circle_overlap_area_equal_r 0 1 = Real.pi * 1 * 1 ∧
     circle_overlap_area_equal_r (2 * 1) 1 = 0) :=
  ⟨by norm_num, c6_overlap_antitone 1 (by norm_num)⟩

/-- At a nonpositive offset the shadow circle coincides with the disk, so the
lit fraction is `0`. -/
theorem lit_from_d_nonpos (dval r : ℝ) (hr : 0 < r) (hd : dval ≤ 0) :
    lit_from_d dval r = 0 := by
  unfold lit_from_d circle_overlap_area_equal_r
  rw [if_pos hd]
  have hπ : Real.pi * r * r ≠ 0 := by positivity
  field_simp

/-- Interval containment through the bisection loop: the pair stays ordered and
inside the initial interval. -/
theorem bisectIter_mem (f r : ℝ) (n : ℕ) (p : ℝ × ℝ) (h1 : p.1 ≤ p.2) :
    p.1 ≤ (bisectIter f r n p).1 ∧ (bisectIter f r n p).1 ≤ (bisectIter f r n p).2 ∧
    (bisectIter f r n p).2 ≤ p.2 := by
  induction n generalizing p with
  | zero => exact ⟨le_refl _, h1, le_refl _⟩
  | succ n ih =>
    rw [show bisectIter f r (n + 1) p = bisectIter f r n (bisectStep f r p) from rfl]
    by_cases hc : lit_from_d ((p.1 + p.2) / 2) r < f
    · rw [show bisectStep f r p = ((p.1 + p.2) / 2, p.2) from by
        simp only [bisectStep]; rw [if_pos hc]]
      obtain ⟨a1, a2, a3⟩ := ih ((p.1 + p.2) / 2, p.2) (by dsimp only; linarith)
      dsimp only at a1 a3
      exact ⟨by linarith, a2, a3⟩
    · rw [show bisectStep f r p = (p.1, (p.1 + p.2) / 2) from by
        simp only [bisectStep]; rw [if_neg hc]]
      obtain ⟨a1, a2, a3⟩ := ih (p.1, (p.1 + p.2) / 2) (by dsimp only; linarith)
      dsimp only at a1 a3
      exact ⟨a1, a2, by linarith⟩

/-- Full bisection invariant: the interval stays in `[0, H]`, keeps the target
fraction bracketed, and halves at each iteration. -/
theorem bisectIter_invariant (f r H : ℝ) (n : ℕ) (p : ℝ × ℝ)
    (h0 : 0 ≤ p.1) (h1 : p.1 ≤ p.2) (h2 : p.2 ≤ H)
    (hlo : lit_from_d p.1 r < f) (hhi : f ≤ lit_from_d p.2 r) :
    0 ≤ (bisectIter f r n p).1 ∧ (bisectIter f r n p).1 ≤ (bisectIter f r n p).2 ∧
    (bisectIter f r n p).2 ≤ H ∧
    lit_from_d (bisectIter f r n p).1 r < f ∧ f ≤ lit_from_d (bisectIter f r n p).2 r ∧
    (bisectIter f r n p).2 - (bisectIter f r n p).1 = (p.2 - p.1) / 2 ^ n := by
  induction n generalizing p with
  | zero => exact ⟨h0, h1, h2, hlo, hhi, by simp [bisectIter]⟩
  | succ n ih =>
    rw [show bisectIter f r (n + 1) p = bisectIter f r n (bisectStep f r p) from rfl]
    by_cases hc : lit_from_d ((p.1 + p.2) / 2) r < f
    · rw [show bisectStep f r p = ((p.1 + p.2) / 2, p.2) from by
        simp only [bisectStep]; rw [if_pos hc]]
      obtain ⟨a1, a2, a3, a4, a5, a6⟩ := ih ((p.1 + p.2) / 2, p.2)
        (by dsimp only; linarith) (by dsimp only; linarith) (by dsimp only; linarith)
        (by dsimp only; exact hc) (by dsimp only; exact hhi)
      refine ⟨a1, a2, a3, a4, a5, ?_⟩
      rw [a6]
      dsimp only
      rw [show ((2 : ℝ) ^ (n + 1)) = 2 ^ n * 2 from by ring]
      field_simp
      ring
    · rw [show bisectStep f r p = (p.1, (p.1 + p.2) / 2) from by
        simp only [bisectStep]; rw [if_neg hc]]
      obtain ⟨a1, a2, a3, a4, a5, a6⟩ := ih (p.1, (p.1 + p.2) / 2)
        (by dsimp only; linarith) (by dsimp only; linarith) (by dsimp only; linarith)
        (by dsimp only; exact hlo) (by dsimp only; exact le_of_not_lt hc)
      refine ⟨a1, a2, a3, a4, a5, ?_⟩
      rw [a6]
      dsimp only
      rw [show ((2 : ℝ) ^ (n + 1)) = 2 ^ n * 2 from by ring]
      field_simp
      ring

/-- In the non-clamped case the source function returns exactly the final
bisection midpoint, which never exceeds the bracket top `2r - eps`
(provided the bracket is nondegenerate, `eps ≤ 2r`). -/
theorem d_from_lit_fraction_mid (f r : ℝ) (h1 : 0 < f) (h2 : f < 1)
    (h3 : epsFor r ≤ 2 * r) :
    d_from_lit_fraction f r =
      ((bisectIter f r 40 (0, 2 * r - epsFor r)).1 +
       (bisectIter f r 40 (0, 2 * r - epsFor r)).2) / 2 ∧
    d_from_lit_fraction f r ≤ 2 * r - epsFor r := by
  obtain ⟨m1, m2, m3⟩ := bisectIter_mem f r 40 (0, 2 * r - epsFor r)
    (by dsimp only; linarith)
  dsimp only at m1 m3
  have hmid : ((bisectIter f r 40 (0, 2 * r - epsFor r)).1 +
      (bisectIter f r 40 (0, 2 * r - epsFor r)).2) / 2 ≤ 2 * r - epsFor r := by
    linarith
  have h0' : ¬ f ≤ 0 := by linarith
  have h1' : ¬ 1 ≤ f := by linarith
  unfold d_from_lit_fraction
  rw [if_neg h0', if_neg h1']
  exact ⟨min_eq_left hmid, min_le_right _ _⟩

/-- C7 (amended): `d_from_lit_fraction` returns `0` for `f ≤ 0`, returns
`2r - eps` for `f ≥ 1`, and otherwise — provided the bisection bracket
`[0, 2r - eps]` is nondegenerate, `eps ≤ 2r` — returns exactly the midpoint of
the final interval of 40 bisection iterations, a value that is at most
`2r - eps`. -/
theorem c7_d_from_lit_fraction_contract (f r : ℝ) (hr : 0 < r) :
    (f ≤ 0 → d_from_lit_fraction f r = 0) ∧
    (1 ≤ f → d_from_lit_fraction f r = 2 * r - epsFor r) ∧
    (0 < f → f < 1 → epsFor r ≤ 2 * r →
      d_from_lit_fraction f r =
        ((bisectIter f r 40 (0, 2 * r - epsFor r)).1 +
         (bisectIter f r 40 (0, 2 * r - epsFor r)).2) / 2 ∧
      d_from_lit_fraction f r ≤ 2 * r - epsFor r) := by
  refine ⟨fun h => by simp [d_from_lit_fraction, h], fun h => ?_,
    fun h1 h2 h3 => d_from_lit_fraction_mid f r h1 h2 h3⟩
  have h0 : ¬ f ≤ 0 := by linarith
  simp [d_from_lit_fraction, h0, h]

/-- Witness for C7 (amended) at `r = 1`, `f = 1/2`. -/
theorem c7_d_from_lit_fraction_contract_witness :
    ((0 : ℝ) < 1 ∧ (0 : ℝ) < 1 / 2 ∧ (1 : ℝ) / 2 < 1 ∧ epsFor 1 ≤ 2 * 1) ∧
    (d_from_lit_fraction (1 / 2) 1 =
      ((bisectIter (1 / 2) 1 40 (0, 2 * 1 - epsFor 1)).1 +
       (bisectIter (1 / 2) 1 40 (0, 2 * 1 - epsFor 1)).2) / 2 ∧
     d_from_lit_fraction (1 / 2) 1 ≤ 2 * 1 - epsFor 1) := by
  have heps : epsFor 1 = 1 / 1000 := by
    unfold epsFor
    rw [max_eq_left (by norm_num)]
  have hle : epsFor 1 ≤ 2 * 1 := by rw [heps]; norm_num
  exact ⟨⟨by norm_num, by norm_num, by norm_num, hle⟩,
    (c7_d_from_lit_fraction_contract (1 / 2) 1 (by norm_num)).2.2
      (by norm_num) (by norm_num) hle⟩

/-- The guard at the tiny radius `r = 1/10000` evaluates to `1/1000`. -/
theorem epsFor_tiny : epsFor (1 / 10000 : ℝ) = 1 / 1000 := by
  unfold epsFor
  rw [max_eq_left (by norm_num)]

/-- Degenerate bisection: when the bracket top is below the bracket bottom and
all probes are nonpositive (as happens for tiny radii, where `2r - eps < 0`),
every iteration moves `lo` and the final midpoint stays strictly above `hi`. -/
theorem bisectIter_degenerate (f r : ℝ) (hf : 0 < f) (hr : 0 < r) (n : ℕ)
    (lo hi : ℝ) (hlt : hi < lo) (hle : lo ≤ 0) :
    (bisectIter f r n (lo, hi)).2 = hi ∧ hi < (bisectIter f r n (lo, hi)).1 ∧
    (bisectIter f r n (lo, hi)).1 ≤ 0 := by
  induction n generalizing lo with
  | zero => exact ⟨rfl, hlt, hle⟩
  | succ n ih =>
    have hmid : (lo + hi) / 2 ≤ 0 := by linarith
    have hc : lit_from_d ((lo + hi) / 2) r < f := by
      rw [lit_from_d_nonpos _ r hr hmid]; exact hf
    rw [show bisectIter f r (n + 1) (lo, hi) = bisectIter f r n (bisectStep f r (lo, hi)) from rfl]
    rw [show bisectStep f r (lo, hi) = ((lo + hi) / 2, hi) from by
      simp only [bisectStep]; rw [if_pos hc]]
    exact ih ((lo + hi) / 2) (by linarith) hmid

/-- At `r = 1/10000` and `f = 1/2` the bracket is degenerate: the function
returns the clipped value `2r - eps`, while the bisection midpoint is strictly
larger. -/
theorem d_from_lit_fraction_tiny :
    d_from_lit_fraction (1 / 2) (1 / 10000) = 2 * (1 / 10000) - epsFor (1 / 10000) ∧
    2 * (1 / 10000 : ℝ) - epsFor (1 / 10000) <
      ((bisectIter (1 / 2) (1 / 10000) 40 (0, 2 * (1 / 10000) - epsFor (1 / 10000))).1 +
       (bisectIter (1 / 2) (1 / 10000) 40 (0, 2 * (1 / 10000) - epsFor (1 / 10000))).2) / 2 := by
  have hH : 2 * (1 / 10000 : ℝ) - epsFor (1 / 10000) < 0 := by
    rw [epsFor_tiny]; norm_num
  obtain ⟨e1, e2, e3⟩ := bisectIter_degenerate (1 / 2) (1 / 10000)
    (by norm_num) (by norm_num) 40 0 (2 * (1 / 10000) - epsFor (1 / 10000)) hH le_rfl
  have hmidgt : 2 * (1 / 10000 : ℝ) - epsFor (1 / 10000) <
      ((bisectIter (1 / 2) (1 / 10000) 40 (0, 2 * (1 / 10000) - epsFor (1 / 10000))).1 +
       (bisectIter (1 / 2) (1 / 10000) 40 (0, 2 * (1 / 10000) - epsFor (1 / 10000))).2) / 2 := by
    rw [e1] at *
    linarith
  refine ⟨?_, hmidgt⟩
  unfold d_from_lit_fraction
  rw [if_neg (by norm_num), if_neg (by norm_num)]
  exact min_eq_right (le_of_lt hmidgt)

/-- Counterexample to C7 as stated: at `r = 1/10000 > 0` and `f = 1/2` the
returned value is the clip `2r - eps`, not the bisection midpoint. -/
theorem c7_counterexample :
    d_from_lit_fraction (1 / 2) (1 / 10000) = 2 * (1 / 10000) - epsFor (1 / 10000) ∧
    d_from_lit_fraction (1 / 2) (1 / 10000) ≠
      ((bisectIter (1 / 2) (1 / 10000) 40 (0, 2 * (1 / 10000) - epsFor (1 / 10000))).1 +
       (bisectIter (1 / 2) (1 / 10000) 40 (0, 2 * (1 / 10000) - epsFor (1 / 10000))).2) / 2 := by
  obtain ⟨hd, hlt⟩ := d_from_lit_fraction_tiny
  refine ⟨hd, ?_⟩
  rw [hd]
  exact ne_of_lt hlt

/-- Mean-value Lipschitz bound for the lit fraction on a sub-bracket `[0, H]`
of `[0, 2r)`: the derivative of the lens area is bounded by `2r`, so the lit
fraction moves at most `2 / (π r)` per unit of offset. -/
theorem lit_from_d_lipschitz (r H a b : ℝ) (hr : 0 < r) (hH : H < 2 * r)
    (ha0 : 0 ≤ a) (haH : a ≤ H) (hb0 : 0 ≤ b) (hbH : b ≤ H) :
    |lit_from_d b r - lit_from_d a r| ≤ 2 / (Real.pi * r) * |b - a| := by
  have hs : Convex ℝ (Set.Icc (0 : ℝ) H) := convex_Icc _ _
  have hderiv : ∀ x ∈ Set.Icc (0 : ℝ) H,
      HasDerivWithinAt (overlapF r) (-Real.sqrt (4 * r * r - x * x)) (Set.Icc 0 H) x :=
    fun x hx =>
      (hasDerivAt_overlapF r x hr (by linarith [hx.1]) (by linarith [hx.2])).hasDerivWithinAt
  have hbound : ∀ x ∈ Set.Icc (0 : ℝ) H, ‖-Real.sqrt (4 * r * r - x * x)‖ ≤ 2 * r := by
    intro x hx
    rw [norm_neg, Real.norm_eq_abs, abs_of_nonneg (Real.sqrt_nonneg _)]
    calc Real.sqrt (4 * r * r - x * x) ≤ Real.sqrt (4 * r * r) :=
          Real.sqrt_le_sqrt (by nlinarith [hx.1])
      _ = 2 * r := by
          rw [show 4 * r * r = (2 * r) ^ 2 from by ring, Real.sqrt_sq (by linarith)]
  have hlip := Convex.norm_image_sub_le_of_norm_hasDerivWithin_le hderiv hbound hs
    ⟨ha0, haH⟩ ⟨hb0, hbH⟩
  rw [Real.norm_eq_abs, Real.norm_eq_abs] at hlip
  have hova : circle_overlap_area_equal_r a r = overlapF r a :=
    overlap_eq_overlapF r a hr ha0 (by linarith)
  have hovb : circle_overlap_area_equal_r b r = overlapF r b :=
    overlap_eq_overlapF r b hr hb0 (by linarith)
  have hπ : (0 : ℝ) < Real.pi * r * r := by positivity
  unfold lit_from_d
  rw [hova, hovb]
  rw [show (1 - overlapF r b / (Real.pi * r * r)) - (1 - overlapF r a / (Real.pi * r * r))
      = (overlapF r a - overlapF r b) / (Real.pi * r * r) from by ring]
  rw [abs_div, abs_of_pos hπ, div_le_iff hπ]
  have hgoal : 2 / (Real.pi * r) * |b - a| * (Real.pi * r * r) = 2 * r * |b - a| := by
    field_simp
    ring
  rw [hgoal, abs_sub_comm]
  exact hlip

/-- C8 (amended): for `r > 0` and target fraction `f` in `{1/4, 1/2, 3/4}`,
provided the bracket top still attains the target
(`f ≤ lit_from_d (2r - eps) r`, which holds for normal radii but fails for
tiny ones), the round trip through `d_from_lit_fraction` reproduces `f` to
within `1/1000`. -/
theorem c8_roundtrip (r f : ℝ) (hr : 0 < r)
    (hf : f = 1 / 4 ∨ f = 1 / 2 ∨ f = 3 / 4)
    (hach : f ≤ lit_from_d (2 * r - epsFor r) r) :
    |(1 - circle_overlap_area_equal_r (d_from_lit_fraction f r) r / (Real.pi * r * r)) - f|
      ≤ 1 / 1000 := by
  have hf0 : 0 < f := by rcases hf with h | h | h <;> rw [h] <;> norm_num
  have hf1 : f < 1 := by rcases hf with h | h | h <;> rw [h] <;> norm_num
  have hεpos : 0 < epsFor r :=
    lt_of_lt_of_le (by norm_num) (le_max_left (1 / 1000) (r * (1 / 10000)))
  have hHpos : 0 < 2 * r - epsFor r := by
    by_contra hcon
    push_neg at hcon
    rw [lit_from_d_nonpos _ r hr hcon] at hach
    linarith
  have hH2r : 2 * r - epsFor r < 2 * r := by linarith
  have hlit0 : lit_from_d 0 r = 0 := lit_from_d_nonpos 0 r hr le_rfl
  obtain ⟨i0, i1, i2, i3, i4, i5⟩ := bisectIter_invariant f r (2 * r - epsFor r) 40
    (0, 2 * r - epsFor r) (by dsimp only; exact le_rfl) (by dsimp only; linarith)
    (by dsimp only; exact le_rfl) (by dsimp only; rw [hlit0]; exact hf0)
    (by dsimp only; exact hach)
  dsimp only at i5
  obtain ⟨hmid, hle⟩ := d_from_lit_fraction_mid f r hf0 hf1 (by linarith)
  set q := bisectIter f r 40 (0, 2 * r - epsFor r) with hq
  have hd0 : 0 ≤ (q.1 + q.2) / 2 := by linarith
  have hdH : (q.1 + q.2) / 2 ≤ 2 * r - epsFor r := by linarith
  have hlipa := lit_from_d_lipschitz r (2 * r - epsFor r) q.1 ((q.1 + q.2) / 2) hr hH2r
    i0 (by linarith) hd0 hdH
  have hlipb := lit_from_d_lipschitz r (2 * r - epsFor r) q.2 ((q.1 + q.2) / 2) hr hH2r
    (by linarith) i2 hd0 hdH
  have hL : (0 : ℝ) ≤ 2 / (Real.pi * r) := by positivity
  have hgap : q.2 - q.1 = (2 * r - epsFor r) / 2 ^ 40 := by
    rw [i5]; ring
  have habs1 : |(q.1 + q.2) / 2 - q.1| = (q.1 + q.2) / 2 - q.1 := abs_of_nonneg (by linarith)
  have habs2 : |(q.1 + q.2) / 2 - q.2| = q.2 - (q.1 + q.2) / 2 := by
    rw [abs_sub_comm]; exact abs_of_nonneg (by linarith)
  have hbd1 : lit_from_d ((q.1 + q.2) / 2) r - f ≤ 2 / (Real.pi * r) * (q.2 - q.1) := by
    have h1 := (abs_le.mp hlipa).2
    rw [habs1] at h1
    have h2 : 2 / (Real.pi * r) * ((q.1 + q.2) / 2 - q.1) ≤ 2 / (Real.pi * r) * (q.2 - q.1) :=
      mul_le_mul_of_nonneg_left (by linarith) hL
    have h3 : lit_from_d q.1 r < f := i3
    linarith
  have hbd2 : f - lit_from_d ((q.1 + q.2) / 2) r ≤ 2 / (Real.pi * r) * (q.2 - q.1) := by
    have h1 := (abs_le.mp hlipb).1
    rw [habs2] at h1
    have h2 : 2 / (Real.pi * r) * (q.2 - (q.1 + q.2) / 2) ≤ 2 / (Real.pi * r) * (q.2 - q.1) :=
      mul_le_mul_of_nonneg_left (by linarith) hL
    have h3 : f ≤ lit_from_d q.2 r := i4
    linarith
  have hnum : 2 / (Real.pi * r) * (q.2 - q.1) ≤ 1 / 1000 := by
    rw [hgap]
    have hπ3 : (3 : ℝ) < Real.pi := Real.pi_gt_three
    have hkey : 2000 * (2 * r - epsFor r) ≤ Real.pi * r * 2 ^ 40 := by
      have h1 : 2 * r - epsFor r ≤ 2 * r := by linarith
      have h2 : (2000 : ℝ) * (2 * r) ≤ 3 * 2 ^ 40 * r := by nlinarith
      nlinarith [pow_pos (show (0 : ℝ) < 2 from by norm_num) 40]
    rw [div_mul_div_comm, div_le_div_iff (by positivity) (by norm_num)]
    nlinarith
  have hfin : |lit_from_d ((q.1 + q.2) / 2) r - f| ≤ 1 / 1000 := by
    rw [abs_le]
    constructor <;> linarith
  rw [hmid]
  exact hfin

/-- For `x` in `[0, 1]`, `arccos x ≤ π/2 - x` (since `arcsin x ≥ x`). -/
theorem arccos_le_pi_div_two_sub (x : ℝ) (h0 : 0 ≤ x) (h1 : x ≤ 1) :
    Real.arccos x ≤ Real.pi / 2 - x := by
  have hsin : Real.sin (Real.arcsin x) = x := Real.sin_arcsin (by linarith) h1
  have hnn : 0 ≤ Real.arcsin x := Real.arcsin_nonneg.mpr h0
  have hle : Real.sin (Real.arcsin x) ≤ Real.arcsin x := Real.sin_le hnn
  rw [Real.arccos_eq_pi_div_two_sub_arcsin]
  linarith [hsin ▸ hle]

/-- The guard at radius `1` evaluates to `1/1000`. -/
theorem epsFor_one : epsFor (1 : ℝ) = 1 / 1000 := by
  unfold epsFor
  rw [max_eq_left (by norm_num)]

/-- At `r = 1` the bracket top `2 - 1/1000` attains lit fraction at least
`1/4` (numeric discharge of the achievability hypothesis of C8). -/
theorem quarter_le_lit_at_top : (1 : ℝ) / 4 ≤ lit_from_d (2 * 1 - epsFor 1) 1 := by
  have hval : 2 * 1 - epsFor 1 = (1999 / 1000 : ℝ) := by rw [epsFor_one]; norm_num
  rw [hval]
  unfold lit_from_d
  have hov : circle_overlap_area_equal_r (1999 / 1000) 1 =
      2 * 1 * 1 * Real.arccos ((1999 / 1000) / (2 * 1)) -
        0.5 * (1999 / 1000) * Real.sqrt (4 * 1 * 1 - (1999 / 1000) * (1999 / 1000)) := by
    unfold circle_overlap_area_equal_r
    rw [if_neg (by norm_num), if_neg (by norm_num)]
  have hacos : Real.arccos ((1999 / 1000) / (2 * 1)) ≤ Real.pi / 2 - (1999 / 1000) / (2 * 1) :=
    arccos_le_pi_div_two_sub _ (by norm_num) (by norm_num)
  have hsq : (0 : ℝ) ≤ Real.sqrt (4 * 1 * 1 - (1999 / 1000) * (1999 / 1000)) :=
    Real.sqrt_nonneg _
  have hπ4 : Real.pi ≤ 4 := Real.pi_le_four
  have hπ0 : (0 : ℝ) < Real.pi := Real.pi_pos
  have hbound : circle_overlap_area_equal_r (1999 / 1000) 1 ≤ 3 / 4 * (Real.pi * 1 * 1) := by
    rw [hov]
    nlinarith
  have hdiv : circle_overlap_area_equal_r (1999 / 1000) 1 / (Real.pi * 1 * 1) ≤ 3 / 4 := by
    rw [div_le_iff (by positivity)]
    linarith
  linarith

/-- Witness for C8 (amended) at `r = 1`, `f = 1/4`. -/
theorem c8_roundtrip_witness :
    ((0 : ℝ) < 1 ∧ (1 : ℝ) / 4 ≤ lit_from_d (2 * 1 - epsFor 1) 1) ∧
    |(1 - circle_overlap_area_equal_r (d_from_lit_fraction (1 / 4) 1) 1 / (Real.pi * 1 * 1))
      - 1 / 4| ≤ 1 / 1000 :=
  ⟨⟨by norm_num, quarter_le_lit_at_top⟩,
   c8_roundtrip 1 (1 / 4) (by norm_num) (Or.inl rfl) quarter_le_lit_at_top⟩

/-- Counterexample to C8 as stated: at `r = 1/10000 > 0` and `f = 1/2`
the returned offset is negative, the overlap is the full circle, and the
round-trip value is `0`, off from `1/2` by far more than `1/1000`. -/
theorem c8_counterexample :
    ¬ |(1 - circle_overlap_area_equal_r (d_from_lit_fraction (1 / 2) (1 / 10000)) (1 / 10000) /
          (Real.pi * (1 / 10000) * (1 / 10000))) - 1 / 2| ≤ 1 / 1000 := by
  obtain ⟨hd, _⟩ := d_from_lit_fraction_tiny
  have hneg : 2 * (1 / 10000 : ℝ) - epsFor (1 / 10000) ≤ 0 := by
    rw [epsFor_tiny]; norm_num
  have hov : circle_overlap_area_equal_r (d_from_lit_fraction (1 / 2) (1 / 10000)) (1 / 10000)
      = Real.pi * (1 / 10000) * (1 / 10000) := by
    rw [hd]
    unfold circle_overlap_area_equal_r
    rw [if_pos hneg]
  rw [hov]
  have hπ : Real.pi * (1 / 10000 : ℝ) * (1 / 10000) ≠ 0 := by positivity
  rw [div_self hπ]
  rw [show (1 : ℝ) - 1 - 1 / 2 = -(1 / 2) from by ring, abs_neg, abs_of_pos (by norm_num)]
  norm_num

/-- Sun angle of `render_moon_icon`: `radians(phase_deg % 360.0)`. -/
noncomputable def sun_angle (phase_deg : ℝ) : ℝ := radians (pymod phase_deg 360)

/-- Sun direction of `render_moon_icon`: `(sin θ, 0, -cos θ)`. -/
noncomputable def sunDir (phase_deg : ℝ) : ℝ × ℝ × ℝ :=
  (Real.sin (sun_angle phase_deg), 0, -Real.cos (sun_angle phase_deg))

/-- Normalized pixel coordinate `(p - c) / r` of the per-pixel loop. -/
noncomputable def normCoord (c r : ℕ) (p : ℤ) : ℝ := ((p : ℝ) - (c : ℕ)) / (r : ℕ)

/-- Per-pixel lit condition of the loop in `render_moon_icon`: the pixel is in
the disk mask, strictly inside the sphere silhouette, and its surface normal
faces the sun strictly. -/
noncomputable def litCond (sd : ℝ × ℝ × ℝ) (cx cy r : ℕ) (mask : ℤ × ℤ → ℕ)
    (q : ℤ × ℤ) : Prop :=
  mask q ≠ 0 ∧
  0 < 1 - normCoord cx r q.1 * normCoord cx r q.1 - normCoord cy r q.2 * normCoord cy r q.2 ∧
  0 < normCoord cx r q.1 * sd.1 + normCoord cy r q.2 * sd.2.1 +
      Real.sqrt (1 - normCoord cx r q.1 * normCoord cx r q.1 -
        normCoord cy r q.2 * normCoord cy r q.2) * sd.2.2

/-- Body of the per-pixel loop of `render_moon_icon` for pixel `(px, py)`:
skip pixels outside the mask, skip pixels outside the silhouette, and set the
lit mask to 255 for sun-facing pixels. -/
noncomputable def litBody (sd : ℝ × ℝ × ℝ) (cx cy r : ℕ) (mask : ℤ × ℤ → ℕ)
    (py : ℤ) (s : ℤ × ℤ → ℕ) (px : ℤ) : ℤ × ℤ → ℕ :=
  if mask (px, py) = 0 then s
  else if 1 - normCoord cx r px * normCoord cx r px - normCoord cy r py * normCoord cy r py ≤ 0
    then s
  else if 0 < normCoord cx r px * sd.1 + normCoord cy r py * sd.2.1 +
      Real.sqrt (1 - normCoord cx r px * normCoord cx r px -
        normCoord cy r py * normCoord cy r py) * sd.2.2
    then fun q => if q = (px, py) then 255 else s q
  else s

/-- The lit mask `lit_pixels` computed by the nested pixel loop of
`render_moon_icon`, starting from the all-zero mask. -/
noncomputable def render_lit_mask (phase_deg : ℝ) (size margin : ℕ)
    (mask : ℤ × ℤ → ℕ) : ℤ × ℤ → ℕ :=
  (List.range size).foldl
    (fun (s : ℤ × ℤ → ℕ) (j : ℕ) =>
      (List.range size).foldl
        (fun (s2 : ℤ × ℤ → ℕ) (i : ℕ) =>
          litBody (sunDir phase_deg) (diskCenter size) (diskCenter size)
            (diskRadius size margin) mask (j : ℤ) s2 (i : ℤ))
        s)
    (fun _ => 0)

/-- Choice by a proposition, with a fixed decidability instance (used to state
pointwise descriptions of the pixel loop uniformly). -/
noncomputable def pick (c : Prop) (a b : ℕ) : ℕ := @ite ℕ c (Classical.propDecidable c) a b

/-- Evaluation of `pick` when the proposition holds. -/
theorem pick_pos {c : Prop} (h : c) (a b : ℕ) : pick c a b = a := by
  unfold pick; exact if_pos h

/-- Evaluation of `pick` when the proposition fails. -/
theorem pick_neg {c : Prop} (h : ¬ c) (a b : ℕ) : pick c a b = b := by
  unfold pick; exact if_neg h

/-- One loop iteration, described pointwise: it sets exactly its own pixel, and
only when the lit condition holds there. -/
theorem litBody_apply (sd : ℝ × ℝ × ℝ) (cx cy r : ℕ) (mask : ℤ × ℤ → ℕ)
    (py : ℤ) (s : ℤ × ℤ → ℕ) (px : ℤ) (q : ℤ × ℤ) :
    litBody sd cx cy r mask py s px q =
      pick (q = (px, py) ∧ litCond sd cx cy r mask q) 255 (s q) := by
  unfold litBody
  by_cases h1 : mask (px, py) = 0
  · rw [if_pos h1, pick_neg]
    rintro ⟨hq, hcond⟩
    subst hq
    exact hcond.1 h1
  · rw [if_neg h1]
    by_cases h2 : 1 - normCoord cx r px * normCoord cx r px -
        normCoord cy r py * normCoord cy r py ≤ 0
    · rw [if_pos h2, pick_neg]
      rintro ⟨hq, hcond⟩
      subst hq
      exact absurd hcond.2.1 (not_lt.mpr h2)
    · rw [if_neg h2]
      by_cases h3 : 0 < normCoord cx r px * sd.1 + normCoord cy r py * sd.2.1 +
          Real.sqrt (1 - normCoord cx r px * normCoord cx r px -
            normCoord cy r py * normCoord cy r py) * sd.2.2
      · rw [if_pos h3]
        show (if q = (px, py) then 255 else s q) = _
        by_cases hq : q = (px, py)
        · subst hq
          rw [if_pos rfl, pick_pos ⟨rfl, h1, not_le.mp h2, h3⟩]
        · rw [if_neg hq, pick_neg (fun h => hq h.1)]
      · rw [if_neg h3, pick_neg]
        rintro ⟨hq, hcond⟩
        subst hq
        exact h3 hcond.2.2

/-- A fold whose every step writes `255` into the pixels selected by its index
(when the shared condition holds) acts pointwise on the state. -/
theorem foldl_write (cond : ℤ × ℤ → Prop) (P : ℕ → ℤ × ℤ → Prop)
    (step : (ℤ × ℤ → ℕ) → ℕ → ℤ × ℤ → ℕ)
    (hstep : ∀ s i q, step s i q = pick (P i q ∧ cond q) 255 (s q))
    (L : List ℕ) (s : ℤ × ℤ → ℕ) (q : ℤ × ℤ) :
    (L.foldl step s) q = pick ((∃ i ∈ L, P i q) ∧ cond q) 255 (s q) := by
  induction L generalizing s with
  | nil =>
    rw [List.foldl_nil, pick_neg]
    rintro ⟨⟨i, hi, -⟩, -⟩
    exact (List.not_mem_nil i) hi
  | cons i L ih =>
    rw [List.foldl_cons, ih, hstep]
    by_cases hc : cond q
    · by_cases hL : ∃ j ∈ L, P j q
      · obtain ⟨j, hj, hp⟩ := hL
        rw [pick_pos ⟨⟨j, hj, hp⟩, hc⟩, pick_pos ⟨⟨j, List.mem_cons_of_mem i hj, hp⟩, hc⟩]
      · rw [pick_neg (fun h => hL h.1)]
        by_cases hPi : P i q
        · rw [pick_pos ⟨hPi, hc⟩, pick_pos ⟨⟨i, List.mem_cons_self i L, hPi⟩, hc⟩]
        · rw [pick_neg (fun h => hPi h.1), pick_neg]
          rintro ⟨⟨j, hj, hp⟩, -⟩
          rcases List.mem_cons.mp hj with rfl | hjL
          · exact hPi hp
          · exact hL ⟨j, hjL, hp⟩
    · rw [pick_neg (fun h => hc h.2), pick_neg (fun h => hc h.2),
        pick_neg (fun h => hc h.2)]

/-- The lit mask, characterized pointwise: a pixel holds `255` exactly when it
is inside the `size × size` grid and the lit condition holds there, else `0`. -/
theorem render_lit_mask_apply (phase_deg : ℝ) (size margin : ℕ)
    (mask : ℤ × ℤ → ℕ) (q : ℤ × ℤ) :
    render_lit_mask phase_deg size margin mask q =
      pick ((0 ≤ q.1 ∧ q.1 < (size : ℤ) ∧ 0 ≤ q.2 ∧ q.2 < (size : ℤ)) ∧
          litCond (sunDir phase_deg) (diskCenter size) (diskCenter size)
            (diskRadius size margin) mask q)
        255 0 := by
  unfold render_lit_mask
  have hstep1 : ∀ (j : ℕ) (s : ℤ × ℤ → ℕ) (i : ℕ) (qq : ℤ × ℤ),
      litBody (sunDir phase_deg) (diskCenter size) (diskCenter size)
        (diskRadius size margin) mask (j : ℤ) s (i : ℤ) qq =
      pick (qq = ((i : ℤ), (j : ℤ)) ∧ litCond (sunDir phase_deg) (diskCenter size)
          (diskCenter size) (diskRadius size margin) mask qq) 255 (s qq) :=
    fun j s i qq => litBody_apply _ _ _ _ _ (j : ℤ) s (i : ℤ) qq
  have hrow : ∀ (s : ℤ × ℤ → ℕ) (j : ℕ) (qq : ℤ × ℤ),
      ((List.range size).foldl
        (fun (s2 : ℤ × ℤ → ℕ) (i : ℕ) =>
          litBody (sunDir phase_deg) (diskCenter size) (diskCenter size)
            (diskRadius size margin) mask (j : ℤ) s2 (i : ℤ)) s) qq =
      pick ((∃ i ∈ List.range size, qq = ((i : ℤ), (j : ℤ))) ∧
          litCond (sunDir phase_deg) (diskCenter size) (diskCenter size)
            (diskRadius size margin) mask qq)
        255 (s qq) :=
    fun s j qq =>
      foldl_write _ (fun i qq => qq = ((i : ℤ), (j : ℤ))) _ (hstep1 j) (List.range size) s qq
  rw [foldl_write
      (litCond (sunDir phase_deg) (diskCenter size) (diskCenter size)
        (diskRadius size margin) mask)
      (fun j qq => ∃ i ∈ List.range size, qq = ((i : ℤ), (j : ℤ)))
      _ hrow (List.range size) (fun _ => 0) q]
  by_cases hb : (0 ≤ q.1 ∧ q.1 < (size : ℤ) ∧ 0 ≤ q.2 ∧ q.2 < (size : ℤ)) ∧
      litCond (sunDir phase_deg) (diskCenter size) (diskCenter size)
        (diskRadius size margin) mask q
  · rw [pick_pos hb, pick_pos]
    refine ⟨⟨q.2.toNat, ?_, q.1.toNat, ?_, ?_⟩, hb.2⟩
    · rw [List.mem_range]; omega
    · rw [List.mem_range]; omega
    · rw [Int.toNat_of_nonneg hb.1.1, Int.toNat_of_nonneg hb.1.2.2.1]
  · rw [pick_neg hb, pick_neg]
    rintro ⟨⟨j, hj, i, hi, rfl⟩, hcond⟩
    rw [List.mem_range] at hi hj
    refine hb ⟨⟨by positivity, ?_, by positivity, ?_⟩, hcond⟩
    · show (i : ℤ) < (size : ℤ)
      exact_mod_cast hi
    · show (j : ℤ) < (size : ℤ)
      exact_mod_cast hj

/-- Congruence for `pick` in its proposition. -/
theorem pick_congr {c1 c2 : Prop} (h : c1 ↔ c2) (a b : ℕ) : pick c1 a b = pick c2 a b := by
  by_cases hc : c1
  · rw [pick_pos hc, pick_pos (h.mp hc)]
  · rw [pick_neg hc, pick_neg (fun hh => hc (h.mpr hh))]

/-- C1: a pixel of the image grid is marked lit (value 255 in the lit mask) if
and only if it is inside the disk mask, strictly inside the sphere silhouette
(`1 - nx² - ny² > 0` with `nx = (px - cx)/r`, `ny = (py - cy)/r`), and the dot
product of the surface normal with the sun direction
`(sin θ, 0, -cos θ)`, `θ = radians(phase_deg mod 360)`, is strictly positive;
all other pixels are unlit. -/
theorem c1_lit_iff (phase_deg : ℝ) (size margin : ℕ) (mask : ℤ × ℤ → ℕ) (px py : ℤ)
    (hsm : 2 * margin < size) (hpx0 : 0 ≤ px) (hpx1 : px < (size : ℤ))
    (hpy0 : 0 ≤ py) (hpy1 : py < (size : ℤ)) :
    render_lit_mask phase_deg size margin mask (px, py) = 255 ↔
      (mask (px, py) ≠ 0 ∧
       0 < 1 - normCoord (diskCenter size) (diskRadius size margin) px *
             normCoord (diskCenter size) (diskRadius size margin) px -
           normCoord (diskCenter size) (diskRadius size margin) py *
             normCoord (diskCenter size) (diskRadius size margin) py ∧
       0 < normCoord (diskCenter size) (diskRadius size margin) px *
             Real.sin (radians (pymod phase_deg 360)) +
           normCoord (diskCenter size) (diskRadius size margin) py * 0 +
           Real.sqrt (1 - normCoord (diskCenter size) (diskRadius size margin) px *
               normCoord (diskCenter size) (diskRadius size margin) px -
             normCoord (diskCenter size) (diskRadius size margin) py *
               normCoord (diskCenter size) (diskRadius size margin) py) *
             (-Real.cos (radians (pymod phase_deg 360)))) := by
  rw [render_lit_mask_apply]
  constructor
  · intro h
    by_cases hc : litCond (sunDir phase_deg) (diskCenter size) (diskCenter size)
        (diskRadius size margin) mask (px, py)
    · exact hc
    · rw [pick_neg (fun hh => hc hh.2)] at h
      exact absurd h (by norm_num)
  · intro h
    exact pick_pos ⟨⟨hpx0, hpx1, hpy0, hpy1⟩, h⟩ 255 0

/-- Witness for C1 at phase 90, the default geometry, the all-255 mask, and
pixel (70, 64). -/
theorem c1_lit_iff_witness :
    (2 * 8 < 128 ∧ (0 : ℤ) ≤ 70 ∧ (70 : ℤ) < 128 ∧ (0 : ℤ) ≤ 64 ∧ (64 : ℤ) < 128) ∧
    (render_lit_mask 90 128 8 (fun _ => 255) (70, 64) = 255 ↔
      ((fun _ => (255 : ℕ)) ((70 : ℤ), (64 : ℤ)) ≠ 0 ∧
       0 < 1 - normCoord (diskCenter 128) (diskRadius 128 8) 70 *
             normCoord (diskCenter 128) (diskRadius 128 8) 70 -
           normCoord (diskCenter 128) (diskRadius 128 8) 64 *
             normCoord (diskCenter 128) (diskRadius 128 8) 64 ∧
       0 < normCoord (diskCenter 128) (diskRadius 128 8) 70 *
             Real.sin (radians (pymod 90 360)) +
           normCoord (diskCenter 128) (diskRadius 128 8) 64 * 0 +
           Real.sqrt (1 - normCoord (diskCenter 128) (diskRadius 128 8) 70 *
               normCoord (diskCenter 128) (diskRadius 128 8) 70 -
             normCoord (diskCenter 128) (diskRadius 128 8) 64 *
               normCoord (diskCenter 128) (diskRadius 128 8) 64) *
             (-Real.cos (radians (pymod 90 360))))) :=
  ⟨⟨by decide, by decide, by decide, by decide, by decide⟩,
   c1_lit_iff 90 128 8 (fun _ => 255) 70 64 (by decide) (by decide) (by decide)
     (by decide) (by decide)⟩

/-- Python modulo of zero is zero. -/
theorem pymod_zero : pymod 0 360 = 0 := by
  unfold pymod
  rw [zero_div, Int.floor_zero]
  push_cast
  ring

/-- The sun angle at phase 0 is 0. -/
theorem sun_angle_zero : sun_angle 0 = 0 := by
  unfold sun_angle radians
  rw [pymod_zero, zero_mul]

/-- At phase 0 the sun direction is `(0, 0, -1)` and no pixel can face it:
the lit condition is false everywhere. -/
theorem litCond_zero_false (cx cy r : ℕ) (mask : ℤ × ℤ → ℕ) (q : ℤ × ℤ) :
    ¬ litCond (sunDir 0) cx cy r mask q := by
  rintro ⟨-, h2, h3⟩
  have hsd : sunDir 0 = (0, 0, -1) := by
    unfold sunDir
    rw [sun_angle_zero, Real.sin_zero, Real.cos_zero]
  rw [hsd] at h3
  dsimp only at h3
  have hs : 0 < Real.sqrt (1 - normCoord cx r q.1 * normCoord cx r q.1 -
      normCoord cy r q.2 * normCoord cy r q.2) := Real.sqrt_pos.mpr h2
  nlinarith [h3, hs]

/-- At phase 0 the whole lit mask is zero, for every mask and geometry. -/
theorem render_lit_mask_zero (size margin : ℕ) (mask : ℤ × ℤ → ℕ) (q : ℤ × ℤ) :
    render_lit_mask 0 size margin mask q = 0 := by
  rw [render_lit_mask_apply, pick_neg]
  rintro ⟨-, hc⟩
  exact litCond_zero_false _ _ _ mask q hc

/-- Background color `BG` (opaque white). -/
def BG : ℕ × ℕ × ℕ := (255, 255, 255)

/-- Moon color `MOON` (warm yellow). -/
def MOON : ℕ × ℕ × ℕ := (255, 214, 0)

/-- Shadow color `SHADOW` (black). -/
def SHADOW : ℕ × ℕ × ℕ := (0, 0, 0)

/-- Modelled from the spec: PIL `ImageDraw.ellipse(bbox, fill=...)`
rasterization (external library, not part of this repository): the filled
disk, taken as the pixels strictly inside the disk (distance from center
less than radius). The source draws the same ellipse for `moon_mask` and
for the shadow base disk. -/
def diskFillMask (cx cy r : ℕ) (q : ℤ × ℤ) : ℕ :=
  if (q.1 - (cx : ℤ)) ^ 2 + (q.2 - (cy : ℤ)) ^ 2 < (r : ℤ) ^ 2 then 255 else 0

/-- Modelled from the spec: the 1-pixel outline stroke
(`ellipse(bbox, outline=(0,0,0), width=1)`, external library): a width-one
ring at the disk boundary circle. -/
def outlineMask (cx cy r : ℕ) (q : ℤ × ℤ) : Bool :=
  decide (((r : ℤ) - 1) ^ 2 < (q.1 - (cx : ℤ)) ^ 2 + (q.2 - (cy : ℤ)) ^ 2 ∧
    (q.1 - (cx : ℤ)) ^ 2 + (q.2 - (cy : ℤ)) ^ 2 ≤ (r : ℤ) ^ 2)

/-- Modelled from the spec: source-over compositing (`Image.alpha_composite`,
external library) restricted to the binary-alpha layers this renderer makes:
a fully opaque layer pixel replaces the destination, a fully transparent one
leaves it. -/
def layerOver (top : Option (ℕ × ℕ × ℕ)) (bot : ℕ × ℕ × ℕ) : ℕ × ℕ × ℕ := top.getD bot

/-- Source `render_moon_icon`: the per-pixel RGB result of compositing the
opaque white background, the shadow disk, the lit overlay (moon color where
the lit mask is set, transparent elsewhere), and the black outline;
`convert("RGB")` drops the alpha channel, so the image is the per-pixel RGB
function. The `fraction` and `waxing` parameters are accepted exactly as in
the source signature. -/
noncomputable def render_moon_icon (fraction : ℝ) (waxing : Bool) (phase_deg : ℝ)
    (size margin : ℕ) : ℤ × ℤ → ℕ × ℕ × ℕ :=
  fun q =>
    layerOver
      (if outlineMask (diskCenter size) (diskCenter size) (diskRadius size margin) q
        then some (0, 0, 0) else none)
      (layerOver
        (if render_lit_mask phase_deg size margin
            (diskFillMask (diskCenter size) (diskCenter size) (diskRadius size margin)) q = 0
          then none else some MOON)
        (layerOver
          (if diskFillMask (diskCenter size) (diskCenter size) (diskRadius size margin) q = 0
            then none else some SHADOW)
          BG))

/-- C9: the rendered image depends only on the phase angle, size and margin;
the `fraction` and `waxing` arguments are never read, so any two values give
identical images. -/
theorem c9_render_ignores_fraction_waxing (f1 f2 : ℝ) (w1 w2 : Bool)
    (phase_deg : ℝ) (size margin : ℕ) :
    render_moon_icon f1 w1 phase_deg size margin =
      render_moon_icon f2 w2 phase_deg size margin := rfl

/-- At phase 0 every pixel strictly inside the disk renders as the shadow
color (the lit overlay is empty and the outline is also shadow-colored). -/
theorem render_zero_interior_shadow (fraction : ℝ) (waxing : Bool)
    (size margin : ℕ) (q : ℤ × ℤ)
    (hq : (q.1 - (diskCenter size : ℤ)) ^ 2 + (q.2 - (diskCenter size : ℤ)) ^ 2 <
      (diskRadius size margin : ℤ) ^ 2) :
    render_moon_icon fraction waxing 0 size margin q = SHADOW := by
  simp only [render_moon_icon]
  rw [render_lit_mask_zero, if_pos rfl]
  have hbase : diskFillMask (diskCenter size) (diskCenter size) (diskRadius size margin) q
      = 255 := by
    unfold diskFillMask
    rw [if_pos hq]
  rw [hbase, if_neg (show ¬ (255 = 0) from by norm_num)]
  by_cases ho : outlineMask (diskCenter size) (diskCenter size) (diskRadius size margin) q
  · rw [if_pos ho]
    rfl
  · rw [if_neg ho]
    rfl

/-- C2: at phase 0 (new moon) the loop marks zero pixels lit; every
disk-interior pixel of the rendered image is the shadow color; in particular
at `size = 128`, `margin = 8` the center pixel `(64, 64)` is the shadow
color, not the moon color. -/
theorem c2_new_moon (fraction : ℝ) (waxing : Bool) (size margin : ℕ)
    (mask : ℤ × ℤ → ℕ) (hsm : 2 * margin < size) :
    (∀ q : ℤ × ℤ, render_lit_mask 0 size margin mask q = 0) ∧
    (∀ q : ℤ × ℤ,
      (q.1 - (diskCenter size : ℤ)) ^ 2 + (q.2 - (diskCenter size : ℤ)) ^ 2 <
        (diskRadius size margin : ℤ) ^ 2 →
      render_moon_icon fraction waxing 0 size margin q = SHADOW) ∧
    render_moon_icon fraction waxing 0 128 8 ((64 : ℤ), (64 : ℤ)) = SHADOW :=
  ⟨fun q => render_lit_mask_zero size margin mask q,
   fun q hq => render_zero_interior_shadow fraction waxing size margin q hq,
   render_zero_interior_shadow fraction waxing 128 8 (64, 64) (by decide)⟩

/-- Witness for C2 at the default geometry. -/
theorem c2_new_moon_witness :
    2 * 8 < 128 ∧ render_moon_icon 0 false 0 128 8 ((64 : ℤ), (64 : ℤ)) = SHADOW :=
  ⟨by decide, (c2_new_moon 0 false 128 8 (fun _ => 255) (by decide)).2.2⟩

/-- The Python modulo by 360 does not change the sine of the radian angle. -/
theorem sin_sun_angle (phase_deg : ℝ) :
    Real.sin (sun_angle phase_deg) = Real.sin (radians phase_deg) := by
  unfold sun_angle pymod radians
  rw [show (phase_deg - 360 * ((⌊phase_deg / 360⌋ : ℤ) : ℝ)) * (Real.pi / 180)
      = phase_deg * (Real.pi / 180) - (⌊phase_deg / 360⌋ : ℤ) * (2 * Real.pi) from by
    push_cast; ring]
  exact Real.sin_sub_int_mul_two_pi _ _

/-- The Python modulo by 360 does not change the cosine of the radian angle. -/
theorem cos_sun_angle (phase_deg : ℝ) :
    Real.cos (sun_angle phase_deg) = Real.cos (radians phase_deg) := by
  unfold sun_angle pymod radians
  rw [show (phase_deg - 360 * ((⌊phase_deg / 360⌋ : ℤ) : ℝ)) * (Real.pi / 180)
      = phase_deg * (Real.pi / 180) - (⌊phase_deg / 360⌋ : ℤ) * (2 * Real.pi) from by
    push_cast; ring]
  exact Real.cos_sub_int_mul_two_pi _ _

/-- Mirroring the phase angle about 360 flips the sine of the sun angle. -/
theorem sin_sun_angle_mirror (phase_deg : ℝ) :
    Real.sin (sun_angle (360 - phase_deg)) = -Real.sin (sun_angle phase_deg) := by
  rw [sin_sun_angle, sin_sun_angle]
  unfold radians
  rw [show (360 - phase_deg) * (Real.pi / 180)
      = 2 * Real.pi - phase_deg * (Real.pi / 180) from by ring]
  exact Real.sin_two_pi_sub _

/-- Mirroring the phase angle about 360 keeps the cosine of the sun angle. -/
theorem cos_sun_angle_mirror (phase_deg : ℝ) :
    Real.cos (sun_angle (360 - phase_deg)) = Real.cos (sun_angle phase_deg) := by
  rw [cos_sun_angle, cos_sun_angle]
  unfold radians
  rw [show (360 - phase_deg) * (Real.pi / 180)
      = 2 * Real.pi - phase_deg * (Real.pi / 180) from by ring]
  exact Real.cos_two_pi_sub _

/-- A pixel whose normalized coordinate has square less than one lies inside
the image grid (drawable geometry: `1 ≤ r ≤ cx` and `cx + r ≤ size`). -/
theorem bounds_of_normsq_lt (cx r size : ℕ) (p : ℤ) (hr : 1 ≤ r) (hcx : r ≤ cx)
    (hsum : cx + r ≤ size)
    (h : normCoord cx r p * normCoord cx r p < 1) :
    0 ≤ p ∧ p < (size : ℤ) := by
  have hrR : (0 : ℝ) < (r : ℕ) := by
    have : (0 : ℕ) < r := hr
    exact_mod_cast this
  have hsq : ((p - (cx : ℤ) : ℤ) : ℝ) ^ 2 < ((r : ℤ) : ℝ) ^ 2 := by
    unfold normCoord at h
    rw [div_mul_div_comm, div_lt_one (by positivity)] at h
    push_cast
    nlinarith [h]
  have hZ : (p - (cx : ℤ)) ^ 2 < (r : ℤ) ^ 2 := by exact_mod_cast hsq
  have hrZ : (0 : ℤ) < (r : ℕ) := by exact_mod_cast hr
  have hcxZ : ((r : ℕ) : ℤ) ≤ ((cx : ℕ) : ℤ) := by exact_mod_cast hcx
  have hsumZ : ((cx : ℕ) : ℤ) + (r : ℕ) ≤ (size : ℕ) := by exact_mod_cast hsum
  have h1 : p - (cx : ℤ) < (r : ℕ) := by nlinarith [hZ, hrZ]
  have h2 : -((r : ℕ) : ℤ) < p - (cx : ℤ) := by nlinarith [hZ, hrZ]
  exact ⟨by omega, by omega⟩

/-- The lit condition at the mirrored phase `360 - θ` and a pixel is equivalent
to the lit condition at phase `θ` and the horizontally mirrored pixel, for the
disk fill mask (which is mirror symmetric). -/
theorem litCond_mirror (phase_deg : ℝ) (cx r : ℕ) (px py : ℤ) :
    litCond (sunDir (360 - phase_deg)) cx cx r (diskFillMask cx cx r) (px, py) ↔
    litCond (sunDir phase_deg) cx cx r (diskFillMask cx cx r)
      (2 * (cx : ℤ) - px, py) := by
  have hnx : normCoord cx r (2 * (cx : ℤ) - px) = -(normCoord cx r px) := by
    unfold normCoord
    push_cast
    ring
  have hmask : diskFillMask cx cx r (2 * (cx : ℤ) - px, py) = diskFillMask cx cx r (px, py) := by
    unfold diskFillMask
    rw [show (2 * (cx : ℤ) - px - (cx : ℤ)) ^ 2 = (px - (cx : ℤ)) ^ 2 from by ring]
  unfold litCond sunDir
  dsimp only
  rw [hnx, hmask, sin_sun_angle_mirror, cos_sun_angle_mirror]
  rw [show -(normCoord cx r px) * -(normCoord cx r px)
      = normCoord cx r px * normCoord cx r px from by ring]
  rw [show -(normCoord cx r px) * Real.sin (sun_angle phase_deg)
      = normCoord cx r px * -Real.sin (sun_angle phase_deg) from by ring]

/-- C3: for every phase angle, the lit mask at phase `360 - θ` is the
horizontal mirror image (about the vertical axis through the disk center,
`px ↦ 2 cx - px`) of the lit mask at phase `θ`, for drawable geometry
(`size ≥ 2 margin + 2`, so the radius is at least one pixel). -/
theorem c3_terminator_mirror (phase_deg : ℝ) (size margin : ℕ) (px py : ℤ)
    (hsm : 2 * margin + 2 ≤ size) :
    render_lit_mask (360 - phase_deg) size margin
      (diskFillMask (diskCenter size) (diskCenter size) (diskRadius size margin)) (px, py) =
    render_lit_mask phase_deg size margin
      (diskFillMask (diskCenter size) (diskCenter size) (diskRadius size margin))
      (2 * (diskCenter size : ℤ) - px, py) := by
  have hgeom : 1 ≤ diskRadius size margin ∧ diskRadius size margin ≤ diskCenter size ∧
      diskCenter size + diskRadius size margin ≤ size := by
    unfold diskRadius diskCenter
    omega
  rw [render_lit_mask_apply, render_lit_mask_apply]
  apply pick_congr
  constructor
  · rintro ⟨hb, hc⟩
    have hc' := (litCond_mirror phase_deg (diskCenter size) (diskRadius size margin) px py).mp hc
    refine ⟨?_, hc'⟩
    have h21 : 0 < 1 -
        normCoord (diskCenter size) (diskRadius size margin) (2 * (diskCenter size : ℤ) - px) *
          normCoord (diskCenter size) (diskRadius size margin) (2 * (diskCenter size : ℤ) - px) -
        normCoord (diskCenter size) (diskRadius size margin) py *
          normCoord (diskCenter size) (diskRadius size margin) py := hc'.2.1
    have hnx2 : normCoord (diskCenter size) (diskRadius size margin)
          (2 * (diskCenter size : ℤ) - px) *
        normCoord (diskCenter size) (diskRadius size margin)
          (2 * (diskCenter size : ℤ) - px) < 1 := by
      nlinarith [h21, mul_self_nonneg (normCoord (diskCenter size) (diskRadius size margin) py)]
    have hb1 := bounds_of_normsq_lt (diskCenter size) (diskRadius size margin) size
      (2 * (diskCenter size : ℤ) - px) hgeom.1 hgeom.2.1 hgeom.2.2 hnx2
    exact ⟨hb1.1, hb1.2, hb.2.2.1, hb.2.2.2⟩
  · rintro ⟨hb, hc⟩
    have hc' := (litCond_mirror phase_deg (diskCenter size) (diskRadius size margin) px py).mpr hc
    refine ⟨?_, hc'⟩
    have h21 : 0 < 1 -
        normCoord (diskCenter size) (diskRadius size margin) px *
          normCoord (diskCenter size) (diskRadius size margin) px -
        normCoord (diskCenter size) (diskRadius size margin) py *
          normCoord (diskCenter size) (diskRadius size margin) py := hc'.2.1
    have hnx2 : normCoord (diskCenter size) (diskRadius size margin) px *
        normCoord (diskCenter size) (diskRadius size margin) px < 1 := by
      nlinarith [h21, mul_self_nonneg (normCoord (diskCenter size) (diskRadius size margin) py)]
    have hb1 := bounds_of_normsq_lt (diskCenter size) (diskRadius size margin) size
      px hgeom.1 hgeom.2.1 hgeom.2.2 hnx2
    exact ⟨hb1.1, hb1.2, hb.2.2.1, hb.2.2.2⟩

/-- Witness for C3 at phase 90, the default geometry, and pixel (70, 64). -/
theorem c3_terminator_mirror_witness :
    2 * 8 + 2 ≤ 128 ∧
    render_lit_mask (360 - 90) 128 8
      (diskFillMask (diskCenter 128) (diskCenter 128) (diskRadius 128 8)) (70, 64) =
    render_lit_mask 90 128 8
      (diskFillMask (diskCenter 128) (diskCenter 128) (diskRadius 128 8))
      (2 * (diskCenter 128 : ℤ) - 70, 64) :=
  ⟨by decide, c3_terminator_mirror 90 128 8 70 64 (by decide)⟩
